import Mathlib

/-!
Verification development for the passgen-api repository (src/controllers.js).

The JavaScript source is shallowly embedded as Lean definitions:

* Buffers become `List Nat` (one entry per byte; a byte buffer's entries
  are below 256, stated as a hypothesis where a theorem needs it).
* The CSPRNG's byte output consumed by the sampling layer is abstracted as
  an infinite byte source `GenStream` (the function `bytes` gives the byte
  a call to `csprng.getBytes` would serve at each position; `pos` is how
  many bytes have been consumed so far).
* Cryptographic primitives (HMAC-SHA256, SHA-256, one AES-256-CTR
  keystream block) are parameters of the functions that use them, since no
  claim depends on their internals, only on lengths and data flow.
* `while` loops that terminate only for entropy reasons (rejection
  sampling, stream top-up) take an explicit fuel argument and return
  `Option`/an `outOfFuel` outcome; `none` also stands for a thrown
  exception where the source throws, noted at each definition.
-/

/-- Infinite byte source abstracting `csprng.getBytes`: `bytes` is the
sequence of bytes the generator serves, `pos` the number already consumed. -/
structure GenStream where
  bytes : Nat → Nat
  pos : Nat

/-- Take `n` bytes from the stream (models a `csprng.getBytes(n)` call). -/
def takeBytes (g : GenStream) (n : Nat) : List Nat × GenStream :=
  ((List.range n).map (fun i => g.bytes (g.pos + i)), ⟨g.bytes, g.pos + n⟩)

/-- Model of `buf.readUInt32BE`: big-endian 32-bit word from four bytes. -/
def readUInt32BE (b0 b1 b2 b3 : Nat) : Nat :=
  ((b0 * 256 + b1) * 256 + b2) * 256 + b3

/-- Read one 4-byte big-endian word from the stream (the
`csprng.getBytes(4)` / `readUInt32BE(0)` pair in `rollSingleDie`). -/
def readWord (g : GenStream) : Nat × GenStream :=
  (readUInt32BE (g.bytes g.pos) (g.bytes (g.pos + 1))
    (g.bytes (g.pos + 2)) (g.bytes (g.pos + 3)), ⟨g.bytes, g.pos + 4⟩)

/-- Successive complete 4-byte big-endian words of a buffer, as read by the
`for (let i = 0; i + 4 <= buf.length; i += 4)` loop of `indicesFromBytes`. -/
def wordsOf : List Nat → List Nat
  | b0 :: b1 :: b2 :: b3 :: rest => readUInt32BE b0 b1 b2 b3 :: wordsOf rest
  | _ => []

/-- Model of `indicesFromBytes(buf, base)` (controllers.js:116): rejection
sampling mapping 32-bit words to indices; a word is kept only below
`Math.floor(0x100000000 / base) * base` and reduced mod `base`. -/
def indicesFromBytes (buf : List Nat) (base : Nat) : List Nat :=
  (wordsOf buf).filterMap (fun n =>
    if n < 4294967296 / base * base then some (n % base) else none)

/-- Model of `rollSingleDie(sides)` (controllers.js:483): draws a 4-byte
word from the generator and rejection-samples against
`Math.floor(0x100000000 / sides) * sides`, re-rolling on rejection. The
fuel bounds the re-roll recursion; `none` covers both fuel exhaustion and
the `sides < 1` throw of the source. -/
def rollSingleDie (sides : Nat) : Nat → GenStream → Option (Nat × GenStream)
  | 0, _ => none
  | fuel + 1, g =>
    if sides < 1 then none
    else if sides = 1 then some (1, g)
    else
      let (w, g') := readWord g
      if w ≥ 4294967296 / sides * sides then rollSingleDie sides fuel g'
      else some (w % sides + 1, g')

/-- HKDF-Expand loop of `hkdfSha256` (controllers.js:28-37). `hmac prk d`
stands for `HMAC-SHA256(key=prk, data=d)`; the source updates the HMAC
with `prev`, `info` and `Buffer.from([i])`, and `Buffer.from` stores `i`
modulo 256. The source loop runs while `generated < length` with no bound
on `i`; the fuel argument only makes the recursion well-founded (callers
pass `length`, enough because real HMAC blocks have 32 bytes ≥ 1). -/
def hkdfExpandAux (hmac : List Nat → List Nat → List Nat)
    (prk info : List Nat) (length : Nat) :
    Nat → Nat → List Nat → Nat → List (List Nat)
  | 0, _, _, _ => []
  | fuel + 1, i, prev, generated =>
    if generated < length then
      hmac prk (prev ++ info ++ [i % 256]) ::
        hkdfExpandAux hmac prk info length fuel (i + 1)
          (hmac prk (prev ++ info ++ [i % 256]))
          (generated + (hmac prk (prev ++ info ++ [i % 256])).length)
    else []

/-- Model of `hkdfSha256(ikm, salt, info, length)` (controllers.js:21):
extract `prk = hmac salt ikm`, expand, concatenate, truncate to `length`.
The source contains no check on the number of expand blocks: it never
throws. -/
def hkdfSha256 (hmac : List Nat → List Nat → List Nat)
    (ikm salt info : List Nat) (length : Nat) : List Nat :=
  (List.flatten (hkdfExpandAux hmac (hmac salt ikm) info length length 1 [] 0)).take length

/-!  The CSPRNG state machine (class `CSPRNG`, controllers.js:42-112). -/

/-- State of the `CSPRNG` instance: `key` (32 bytes), `ivBase` (16 bytes),
both `none` when unseeded, the 64-bit block `counter`, the keystream byte
`pool`, and `lastReseed` (a `Date.now()` timestamp). -/
structure CSPRNGState where
  key : Option (List Nat)
  ivBase : Option (List Nat)
  counter : Nat
  pool : List Nat
  lastReseed : Nat

/-- Big-endian 8-byte rendering of the counter
(`ctrBytes.writeBigUInt64BE(cnt)` in `_ivForCounter`). -/
def be8 (n : Nat) : List Nat :=
  (List.range 8).map (fun i => n / 256 ^ (7 - i) % 256)

/-- Model of `_ivForCounter(cnt)` (controllers.js:66): copy `ivBase`
(16 bytes) and overwrite its last 8 bytes with the counter. -/
def ivForCounter (ivBase : List Nat) (cnt : Nat) : List Nat :=
  ivBase.take 8 ++ be8 cnt

/-- One keystream segment of `_refill`: `aes k iv` stands for encrypting a
16-byte zero block with AES-256-CTR under `k`/`iv`. The source copies the
segment into a 16-byte slot of a zeroed buffer, so the slot holds the
segment truncated or zero-padded to exactly 16 bytes (real AES output is
exactly 16 bytes). -/
def ksBlock16 (aes : List Nat → List Nat → List Nat)
    (k iv : List Nat) : List Nat :=
  (aes k iv ++ List.replicate 16 0).take 16

/-- Keystream bytes produced by `numBlocks` consecutive counter values
starting at `start` (the block loop of `_refill`, controllers.js:88-97). -/
def keystreamBlocks (aes : List Nat → List Nat → List Nat)
    (k iv : List Nat) (start numBlocks : Nat) : List Nat :=
  List.flatten ((List.range numBlocks).map
    (fun j => ksBlock16 aes k (ivForCounter iv (start + j))))

/-- Model of `CSPRNG._refill(minBytes)` (controllers.js:76): unseeded
states append OS-random bytes (`os` abstracts `crypto.randomBytes`);
seeded states append `Math.ceil(max(4096, minBytes) / 16)` keystream
blocks generated from consecutive counter values and advance the counter
by that block count. -/
def refill (aes : List Nat → List Nat → List Nat) (os : Nat → List Nat)
    (st : CSPRNGState) (minBytes : Nat) : CSPRNGState :=
  match st.key, st.ivBase with
  | some k, some iv =>
    { st with
      pool := st.pool ++ keystreamBlocks aes k iv st.counter ((max 4096 minBytes + 15) / 16)
      counter := st.counter + (max 4096 minBytes + 15) / 16 }
  | _, _ => { st with pool := st.pool ++ os minBytes }

/-- Model of `CSPRNG.getBytes(n)` (controllers.js:101): top up the pool
when it holds fewer than `n` bytes, then serve and consume the first `n`
pool bytes. The reseed-age check in the source has an empty body and is
omitted. -/
def getBytes (aes : List Nat → List Nat → List Nat) (os : Nat → List Nat)
    (n : Nat) (st : CSPRNGState) : List Nat × CSPRNGState :=
  let st1 := if st.pool.length < n then refill aes os st (n - st.pool.length) else st
  (st1.pool.take n, { st1 with pool := st1.pool.drop n })

/-- Byte rendering of the fixed `info` string
`'hamtech-password-csprng-seed'` used by `reseed`. -/
def infoSeed : List Nat :=
  (String.toList "hamtech-password-csprng-seed").map Char.toNat

/-- Model of `CSPRNG.reseed(seedMaterial)` (controllers.js:51): derive 48
bytes with HKDF (salt is the SHA-256 hash of fresh OS entropy, `sha`
abstracts SHA-256), install the first 32 bytes as key and the last 16 as
IV base, reset the counter, clear the pool, record the reseed time. -/
def reseed (hmac : List Nat → List Nat → List Nat)
    (sha : List Nat → List Nat) (st : CSPRNGState)
    (seedMaterial osEntropy : List Nat) (now : Nat) : CSPRNGState :=
  let _ := st
  { key := some ((hkdfSha256 hmac seedMaterial (sha osEntropy) infoSeed 48).take 32)
    ivBase := some (((hkdfSha256 hmac seedMaterial (sha osEntropy) infoSeed 48).drop 32).take 16)
    counter := 0
    pool := []
    lastReseed := now }

/-!  Charsets and the password engine (controllers.js:126-279). -/

/-- Fixed lowercase alphabet `LOWER` (controllers.js:16). -/
def LOWER : List Char := String.toList "abcdefghijklmnopqrstuvwxyz"

/-- Fixed uppercase alphabet `UPPER` (controllers.js:17). -/
def UPPER : List Char := String.toList "ABCDEFGHIJKLMNOPQRSTUVWXYZ"

/-- Fixed digit alphabet `DIGITS` (controllers.js:18). -/
def DIGITS : List Char := String.toList "0123456789"

/-- Default symbol alphabet `DEFAULT_SYMBOLS` (controllers.js:15),
`!@#$%^&*()-_=+[]\x7b\x7d:;<>,.?`. -/
def DEFAULT_SYMBOLS : List Char :=
  ['!', '@', '#', '$', '%', '^', '&', '*', '(', ')', '-', '_', '=', '+',
   '[', ']', '\x7b', '\x7d', ':', ';', '<', '>', ',', '.', '?']

/-- Ambiguous characters removed by `buildCharset` when `excludeAmbiguous`
is set (controllers.js:142). -/
def AMBIGUOUS : List Char :=
  ['O', '0', 'I', 'l', '1', 'S', '5', 'B', '8', 'Z', '2']

/-- Charset policy options (the `opts` object consumed by `buildCharset`
and `enforceRequirementsAsync`); `symbols` is the caller-supplied symbol
alphabet, the empty list standing for a falsy value. -/
structure PwOpts where
  includeLower : Bool
  includeUpper : Bool
  includeDigits : Bool
  includeSymbols : Bool
  symbols : List Char
  excludeAmbiguous : Bool

/-- Order-preserving de-duplication, as `Array.from(new Set(set))`:
`seen` holds characters already emitted. -/
def dedupAux (seen : List Char) : List Char → List Char
  | [] => []
  | c :: rest =>
    if seen.contains c then dedupAux seen rest
    else c :: dedupAux (c :: seen) rest

/-- Model of `buildCharset(opts)` (controllers.js:127): concatenate the
enabled class alphabets (`symbols || DEFAULT_SYMBOLS` for the symbol
class), optionally filter ambiguous characters, de-duplicate preserving
first occurrences. `none` models the two throws (empty charset, fewer
than 2 characters after the filters). -/
def buildCharset (opts : PwOpts) : Option (List Char) :=
  let set0 :=
    (if opts.includeLower then LOWER else []) ++
    (if opts.includeUpper then UPPER else []) ++
    (if opts.includeDigits then DIGITS else []) ++
    (if opts.includeSymbols then
      (if opts.symbols = [] then DEFAULT_SYMBOLS else opts.symbols) else [])
  if set0 = [] then none
  else
    let set1 := if opts.excludeAmbiguous then
      set0.filter (fun c => !(AMBIGUOUS.contains c)) else set0
    let set2 := dedupAux [] set1
    if set2.length < 2 then none else some set2

/-- One call to the closure returned by `pullIdx(base)` inside
`derivePassword` (controllers.js:235-247), invoked with argument `n`.
State threaded through: the closure's index `pool`, the shared byte
`stream`, and the generator. While the pool is empty the source
recomputes `indicesFromBytes(stream, base)` over the whole current stream
and, if that yields nothing, appends `csprng.getBytes(256)` to the stream
and retries; the fuel bounds that loop. On success it serves
`pool.shift() % n`. -/
def pullIdxStep (base n : Nat) :
    Nat → List Nat → List Nat → GenStream →
    Option (Nat × List Nat × List Nat × GenStream)
  | 0, _, _, _ => none
  | _ + 1, idx :: pool, stream, g => some (idx % n, pool, stream, g)
  | fuel + 1, [], stream, g =>
    match indicesFromBytes stream base with
    | idx :: pool => some (idx % n, pool, stream, g)
    | [] =>
      let (tb, g') := takeBytes g 256
      pullIdxStep base n fuel [] (stream ++ tb) g'

/-- The character-drawing loop of `derivePassword` (controllers.js:250-251):
`n` calls of `pickChar = pullIdx(charset.length)` with its persistent
index pool, each mapping the drawn index into the charset. -/
def drawChars (charset : List Char) :
    Nat → Nat → List Nat → List Nat → GenStream →
    Option (List Char × List Nat × List Nat × GenStream)
  | 0, _, pool, stream, g => some ([], pool, stream, g)
  | count + 1, fuel, pool, stream, g =>
    match pullIdxStep charset.length charset.length fuel pool stream g with
    | none => none
    | some (v, pool1, stream1, g1) =>
      match drawChars charset count fuel pool1 stream1 g1 with
      | none => none
      | some (cs, pool2, stream2, g2) =>
        some (charset.getD v ' ' :: cs, pool2, stream2, g2)

/-- The required class alphabets `reqSets` built by
`enforceRequirementsAsync` (controllers.js:263-267), in source order. -/
def reqSetsOf (opts : PwOpts) : List (List Char) :=
  (if opts.includeLower then [LOWER] else []) ++
  (if opts.includeUpper then [UPPER] else []) ++
  (if opts.includeDigits then [DIGITS] else []) ++
  (if opts.includeSymbols then
    [if opts.symbols = [] then DEFAULT_SYMBOLS else opts.symbols] else [])

/-- Model of the class loop of `enforceRequirementsAsync`
(controllers.js:269-277) specialized to the closures `derivePassword`
passes it: `pickPos` is `pullIdx(out.length)` with a persistent pool
(`posPool`), and `pickFromSet n` is a fresh `pullIdx(n)` whose pool is
discarded after its single draw. Empty sets are skipped (`if (!s)`); a
set already represented in the password is left alone; otherwise one
position and one class character are drawn and the position overwritten. -/
def enforceRequirementsAsync (fuel : Nat) :
    List (List Char) → List Char → List Nat → List Nat → GenStream →
    Option (List Char × List Nat × List Nat × GenStream)
  | [], pw, posPool, stream, g => some (pw, posPool, stream, g)
  | s :: rest, pw, posPool, stream, g =>
    if s = [] then enforceRequirementsAsync fuel rest pw posPool stream g
    else if pw.any (fun c => s.contains c) then
      enforceRequirementsAsync fuel rest pw posPool stream g
    else
      match pullIdxStep pw.length pw.length fuel posPool stream g with
      | none => none
      | some (pos, posPool1, stream1, g1) =>
        match pullIdxStep s.length s.length fuel [] stream1 g1 with
        | none => none
        | some (ci, _, stream2, g2) =>
          enforceRequirementsAsync fuel rest (pw.set pos (s.getD ci ' '))
            posPool1 stream2 g2

/-- Model of `derivePassword(length, charset, requireEachClass, opts)`
(controllers.js:229): reject lengths above `MAX_LEN = 256` (`none` models
the throw), pull `max(128, length*4)` generator bytes as the initial
stream, draw `length` characters, then optionally run the class
enforcement with `pickPos`/`pickFromSet` sharing the same stream. -/
def derivePassword (length : Nat) (charset : List Char)
    (requireEachClass : Bool) (opts : PwOpts) (g : GenStream)
    (fuel : Nat) : Option (List Char) :=
  if 256 < length then none
  else
    let (stream, g1) := takeBytes g (max 128 (length * 4))
    match drawChars charset length fuel [] stream g1 with
    | none => none
    | some (out, _, stream2, g2) =>
      if requireEachClass then
        match enforceRequirementsAsync fuel (reqSetsOf opts) out [] stream2 g2 with
        | none => none
        | some (pw, _, _, _) => some pw
      else some out

/-!  QRNG block packing (`packBlocksToBytes`, controllers.js:154-172). -/

/-- One response block: `binary` is `some` of the field's characters when
the field is a string (absent or non-string otherwise), `decimal` is
`some d` when `Number(item?.decimal)` is the integer `d` (`none` for NaN
and other non-integers). -/
structure QrngBlock where
  binary : Option (List Char)
  decimal : Option Int

/-- ASCII whitespace removed by `String.prototype.trim`. -/
def isWsChar (c : Char) : Bool :=
  c = ' ' ∨ c = '\t' ∨ c = '\n' ∨ c = '\r' ∨ c = '\x0b' ∨ c = '\x0c'

/-- Model of `trim` on the block's binary field. -/
def trimWs (s : List Char) : List Char :=
  ((s.dropWhile isWsChar).reverse.dropWhile isWsChar).reverse

/-- Binary digits of a non-negative number, as `d.toString(2)`
(most-significant first, `'0'` for zero). -/
def natToBits (n : Nat) : List Char := Nat.toDigits 2 n

/-- Left zero-padding to `w` characters (`b.padStart(w, '0')`; strings
already at least `w` long are unchanged). -/
def padStartZero (w : Nat) (s : List Char) : List Char :=
  List.replicate (w - s.length) '0' ++ s

/-- Bit characters one block contributes to the bitstream
(controllers.js:156-166): prefer a trimmed all-`[01]` non-empty binary
string, otherwise the binary rendering of a non-negative integer decimal
field, otherwise nothing (`continue`); pad to `bitsPerBlock`. -/
def blockBitsOf (bitsPerBlock : Nat) (item : QrngBlock) : List Char :=
  match (match item.binary with
         | some s =>
           if trimWs s ≠ [] ∧ (trimWs s).all (fun c => c = '0' ∨ c = '1')
           then some (trimWs s) else none
         | none => none) with
  | some t => padStartZero bitsPerBlock t
  | none =>
    match item.decimal with
    | some d => if d < 0 then [] else padStartZero bitsPerBlock (natToBits d.toNat)
    | none => []

/-- Byte value of eight bit characters (`parseInt(bits.slice(i, i+8), 2)`
on a string of `[01]` characters). -/
def byteOfBits (bits : List Char) : Nat :=
  bits.foldl (fun a c => a * 2 + (if c = '1' then 1 else 0)) 0

/-- The byte-emission loop of `packBlocksToBytes` (controllers.js:167-170):
one byte per complete run of 8 bits, trailing partial run discarded. -/
def packBits : List Char → List Nat
  | b0 :: b1 :: b2 :: b3 :: b4 :: b5 :: b6 :: b7 :: rest =>
    byteOfBits [b0, b1, b2, b3, b4, b5, b6, b7] :: packBits rest
  | _ => []

/-- Model of `packBlocksToBytes(blocks, bitsPerBlock)` (controllers.js:154):
concatenate every block's padded bit string and emit complete bytes. -/
def packBlocksToBytes (blocks : List QrngBlock) (bitsPerBlock : Nat) : List Nat :=
  packBits (List.flatten (blocks.map (blockBitsOf bitsPerBlock)))

/-!  Dice expression evaluation (controllers.js:410-499). -/

/-- Decimal digit test, as `\d` restricted to ASCII. -/
def isDigitChar (c : Char) : Bool := '0' ≤ c ∧ c ≤ '9'

/-- Value of a digit string, as `parseInt` on `\d+` material (0 for the
empty string, where the source's `parseInt` yields NaN). -/
def digitsToNat (ds : List Char) : Nat :=
  ds.foldl (fun a c => a * 10 + (c.toNat - 48)) 0

/-- Model of the expression cleanup (controllers.js:412): lowercase, strip
whitespace (ASCII portion of `\s`). -/
def cleanDice (s : List Char) : List Char :=
  (s.map Char.toLower).filter (fun c => !(isWsChar c))

/-- One match of the dice regex `(\d*)d(\d+)([+-]\d+)?`: the raw count
digits (`match[1]`, possibly empty), the parsed die size (`match[2]`),
and the parsed signed modifier (0 when the optional group is absent,
matching `match[3] ? parseInt(match[3]) : 0`). -/
structure DiceMatch where
  countDigits : List Char
  sides : Nat
  modifier : Int
deriving DecidableEq

/-- Scanner equivalent to repeated `diceRegex.exec` over the cleaned
expression plus the removal of the matched spans (controllers.js:421 and
454): returns the matches in order and the unmatched residue characters.
A match needs a (possibly empty) digit run, a literal `d`, at least one
digit, then optionally a sign followed by at least one digit; the
backtracking regex finds a match at a position exactly under those
conditions. The fuel only bounds the recursion (every step consumes at
least one character, so the input length is enough fuel). -/
def scanDiceAux : Nat → List Char → List DiceMatch × List Char
  | 0, s => ([], s)
  | _ + 1, [] => ([], [])
  | fuel + 1, c :: rest =>
    if isDigitChar c ∨ c = 'd' then
      match List.span isDigitChar (c :: rest) with
      | (ds, r1) =>
        match r1 with
        | 'd' :: r2 =>
          match List.span isDigitChar r2 with
          | ([], _) =>
            let (ms, res) := scanDiceAux fuel r2
            (ms, ds ++ 'd' :: res)
          | (sd, r3) =>
            match r3 with
            | '+' :: r4 =>
              match List.span isDigitChar r4 with
              | ([], _) =>
                let (ms, res) := scanDiceAux fuel r3
                (⟨ds, digitsToNat sd, 0⟩ :: ms, res)
              | (md, r5) =>
                let (ms, res) := scanDiceAux fuel r5
                (⟨ds, digitsToNat sd, (digitsToNat md : Int)⟩ :: ms, res)
            | '-' :: r4 =>
              match List.span isDigitChar r4 with
              | ([], _) =>
                let (ms, res) := scanDiceAux fuel r3
                (⟨ds, digitsToNat sd, 0⟩ :: ms, res)
              | (md, r5) =>
                let (ms, res) := scanDiceAux fuel r5
                (⟨ds, digitsToNat sd, -(digitsToNat md : Int)⟩ :: ms, res)
            | _ =>
              let (ms, res) := scanDiceAux fuel r3
              (⟨ds, digitsToNat sd, 0⟩ :: ms, res)
        | [] => ([], ds)
        | x :: xs =>
          let (ms, res) := scanDiceAux fuel xs
          (ms, ds ++ x :: res)
    else
      let (ms, res) := scanDiceAux fuel rest
      (ms, c :: res)

/-- Scanner equivalent to `residue.match(/[+-]?\d+/g)` followed by
`parseInt` (controllers.js:454-457): the standalone numeric modifiers of
the unmatched residue, in order. -/
def scanNums : Nat → List Char → List Int
  | 0, _ => []
  | _ + 1, [] => []
  | fuel + 1, c :: rest =>
    if isDigitChar c then
      match List.span isDigitChar (c :: rest) with
      | (ds, r) => (digitsToNat ds : Int) :: scanNums fuel r
    else if c = '+' then
      match List.span isDigitChar rest with
      | ([], _) => scanNums fuel rest
      | (ds, r) => (digitsToNat ds : Int) :: scanNums fuel r
    else if c = '-' then
      match List.span isDigitChar rest with
      | ([], _) => scanNums fuel rest
      | (ds, r) => -(digitsToNat ds : Int) :: scanNums fuel r
    else scanNums fuel rest

/-- Dice matches of an expression after cleanup. -/
def diceMatchesOf (expr : List Char) : List DiceMatch :=
  (scanDiceAux (cleanDice expr).length (cleanDice expr)).1

/-- Standalone numeric modifiers of an expression: the numbers matched in
the residue left after removing every dice-regex span. -/
def standaloneModsOf (expr : List Char) : List Int :=
  scanNums (scanDiceAux (cleanDice expr).length (cleanDice expr)).2.length
    (scanDiceAux (cleanDice expr).length (cleanDice expr)).2

/-- Parsed dice count of a term: `parseInt(match[1]) || 1`, so the empty
string (NaN) and an explicit 0 both become 1. -/
def numDiceOf (ds : List Char) : Nat :=
  if digitsToNat ds = 0 then 1 else digitsToNat ds

/-- Errors thrown by `parseAndRollDice`. -/
inductive DiceError
  | invalidDiceSize
  | invalidDiceCount
  | noDiceFound
deriving DecidableEq

/-- Outcome of evaluating a dice expression: a thrown error, a result
(total and individual rolls; the `breakdown` response field is formatting
and not modeled), or fuel exhaustion of the embedded entropy loops. -/
inductive RollOutcome
  | success (total : Int) (rolls : List Nat)
  | failure (e : DiceError)
  | outOfFuel
deriving DecidableEq

/-- Roll `count` dice of the given size (the loop at controllers.js:436). -/
def rollDice (sides : Nat) : Nat → Nat → GenStream → Option (List Nat × GenStream)
  | 0, _, g => some ([], g)
  | count + 1, fuel, g =>
    match rollSingleDie sides fuel g with
    | none => none
    | some (r, g1) =>
      match rollDice sides count fuel g1 with
      | none => none
      | some (rs, g2) => some (r :: rs, g2)

/-- The match loop of `parseAndRollDice` (controllers.js:421-451): for
each dice match validate the size (`InvalidDiceSize` for sides outside
[1,1000]) and the parsed count (`InvalidDiceCount` outside [1,100]), roll
the dice, add the subtotal (rolls plus the term's modifier) to the
accumulated total and the rolls to the accumulated roll list. -/
def processMatches (fuel : Nat) :
    List DiceMatch → GenStream → Int → List Nat → RollOutcome
  | [], _, total, rolls => .success total rolls
  | m :: ms, g, total, rolls =>
    if m.sides < 1 ∨ 1000 < m.sides then .failure .invalidDiceSize
    else if numDiceOf m.countDigits < 1 ∨ 100 < numDiceOf m.countDigits then
      .failure .invalidDiceCount
    else
      match rollDice m.sides (numDiceOf m.countDigits) fuel g with
      | none => .outOfFuel
      | some (rs, g1) =>
        processMatches fuel ms g1
          (total + rs.foldl (fun a r => a + (r : Int)) 0 + m.modifier)
          (rolls ++ rs)

/-- Model of `parseAndRollDice(expression)` (controllers.js:410): evaluate
every dice match, add the standalone modifiers of the residue, and throw
`NoDiceFound` when the final total is 0 and no die was rolled
(controllers.js:470-471). -/
def parseAndRollDice (expr : List Char) (fuel : Nat) (g : GenStream) : RollOutcome :=
  match processMatches fuel (diceMatchesOf expr) g 0 [] with
  | .success t rolls =>
    if t + (standaloneModsOf expr).foldl (· + ·) 0 = 0 ∧ rolls = [] then
      .failure .noDiceFound
    else .success (t + (standaloneModsOf expr).foldl (· + ·) 0) rolls
  | o => o

/-!  Concrete inputs used by witnesses and counterexamples. -/

/-- Generator sequence serving only zero bytes. -/
def zeroG : GenStream := ⟨fun _ => 0, 0⟩

/-- Generator sequence whose twelfth byte is 1 (so the third 4-byte word
is 1) and every other byte 0. -/
def g10 : GenStream := ⟨fun n => if n = 11 then 1 else 0, 0⟩

/-- The controller's default policy (controllers.js:290-307): all four
classes enabled, default symbols, ambiguous characters excluded. -/
def allOpts : PwOpts := ⟨true, true, true, true, DEFAULT_SYMBOLS, true⟩

/-- Charset the controller builds under the default policy. -/
def pwCharset : List Char := (buildCharset allOpts).getD []

/-!  Helper lemmas. -/

theorem mem_set_self {α : Type} (l : List α) (i : Nat) (a : α)
    (h : i < l.length) : a ∈ l.set i a := by
  induction l generalizing i with
  | nil => simp at h
  | cons x xs ih =>
    cases i with
    | zero => simp
    | succ j => simpa using Or.inr (ih j (by simpa using h))

theorem pullIdxStep_lt (base n : Nat) :
    ∀ fuel pool stream g v p' s' g',
      pullIdxStep base n fuel pool stream g = some (v, p', s', g') →
      0 < n → v < n := by
  intro fuel
  induction fuel with
  | zero => intro pool stream g v p' s' g' h; simp [pullIdxStep] at h
  | succ f ih =>
    intro pool stream g v p' s' g' h hn
    match pool with
    | idx :: rest =>
      simp [pullIdxStep] at h
      obtain ⟨hv, _⟩ := h
      exact hv ▸ Nat.mod_lt _ hn
    | [] =>
      rw [pullIdxStep] at h
      rcases hi : indicesFromBytes stream base with _ | ⟨idx, rest⟩
      · rw [hi] at h
        exact ih [] _ _ v p' s' g' h hn
      · rw [hi] at h
        simp at h
        obtain ⟨hv, _⟩ := h
        exact hv ▸ Nat.mod_lt _ hn

theorem drawChars_length (charset : List Char) :
    ∀ count fuel pool stream g cs p' s' g',
      drawChars charset count fuel pool stream g = some (cs, p', s', g') →
      cs.length = count := by
  intro count
  induction count with
  | zero =>
    intro fuel pool stream g cs p' s' g' h
    simp [drawChars] at h
    simp [h.1]
  | succ k ih =>
    intro fuel pool stream g cs p' s' g' h
    rw [drawChars] at h
    rcases h1 : pullIdxStep charset.length charset.length fuel pool stream g
      with _ | ⟨v, pool1, stream1, g1⟩
    · rw [h1] at h; simp at h
    · rw [h1] at h
      dsimp only at h
      rcases h2 : drawChars charset k fuel pool1 stream1 g1
        with _ | ⟨cs2, p2, s2, g2⟩
      · rw [h2] at h; simp at h
      · rw [h2] at h
        simp at h
        obtain ⟨hcs, _⟩ := h
        subst hcs
        simp [ih fuel pool1 stream1 g1 cs2 p2 s2 g2 h2]

theorem enforce_some_length (fuel : Nat) :
    ∀ sets pw posPool stream g pw' p' s' g',
      enforceRequirementsAsync fuel sets pw posPool stream g =
        some (pw', p', s', g') →
      pw'.length = pw.length := by
  intro sets
  induction sets with
  | nil =>
    intro pw posPool stream g pw' p' s' g' h
    simp [enforceRequirementsAsync] at h
    simp [h.1]
  | cons s rest ih =>
    intro pw posPool stream g pw' p' s' g' h
    rw [enforceRequirementsAsync] at h
    by_cases hs : s = []
    · rw [if_pos hs] at h
      exact ih pw posPool stream g pw' p' s' g' h
    · rw [if_neg hs] at h
      by_cases hok : pw.any (fun c => s.contains c)
      · rw [if_pos hok] at h
        exact ih pw posPool stream g pw' p' s' g' h
      · rw [if_neg hok] at h
        rcases h1 : pullIdxStep pw.length pw.length fuel posPool stream g
          with _ | ⟨pos, posPool1, stream1, g1⟩
        · rw [h1] at h; simp at h
        · rw [h1] at h
          dsimp only at h
          rcases h2 : pullIdxStep s.length s.length fuel [] stream1 g1
            with _ | ⟨ci, q, stream2, g2⟩
          · rw [h2] at h; simp at h
          · rw [h2] at h
            dsimp only at h
            have := ih _ _ _ _ pw' p' s' g' h
            simpa using this

theorem enforce_last_mem (fuel : Nat) :
    ∀ sets s pw posPool stream g pw' p' s' g',
      s ≠ [] → 0 < pw.length →
      enforceRequirementsAsync fuel (sets ++ [s]) pw posPool stream g =
        some (pw', p', s', g') →
      ∃ c, c ∈ pw' ∧ c ∈ s := by
  intro sets
  induction sets with
  | nil =>
    intro s pw posPool stream g pw' p' s' g' hs hpw h
    simp only [List.nil_append] at h
    rw [enforceRequirementsAsync] at h
    rw [if_neg hs] at h
    by_cases hok : pw.any (fun c => s.contains c)
    · rw [if_pos hok] at h
      simp [enforceRequirementsAsync] at h
      obtain ⟨hpw', _⟩ := h
      subst hpw'
      simpa using hok
    · rw [if_neg hok] at h
      rcases h1 : pullIdxStep pw.length pw.length fuel posPool stream g
        with _ | ⟨pos, posPool1, stream1, g1⟩
      · rw [h1] at h; simp at h
      · rw [h1] at h
        dsimp only at h
        rcases h2 : pullIdxStep s.length s.length fuel [] stream1 g1
          with _ | ⟨ci, q, stream2, g2⟩
        · rw [h2] at h; simp at h
        · rw [h2] at h
          dsimp only at h
          simp [enforceRequirementsAsync] at h
          obtain ⟨hpw', _⟩ := h
          subst hpw'
          have hpos : pos < pw.length :=
            pullIdxStep_lt _ _ fuel posPool stream g pos posPool1 stream1 g1 h1 hpw
          have hci : ci < s.length :=
            pullIdxStep_lt _ _ fuel [] stream1 g1 ci q stream2 g2 h2
              (List.length_pos.mpr hs)
          refine ⟨_, mem_set_self pw pos _ hpos, ?_⟩
          rw [List.getElem?_eq_getElem hci]
          simp [List.getElem_mem hci]
  | cons t rest ih =>
    intro s pw posPool stream g pw' p' s' g' hs hpw h
    rw [List.cons_append, enforceRequirementsAsync] at h
    by_cases ht : t = []
    · rw [if_pos ht] at h
      exact ih s pw posPool stream g pw' p' s' g' hs hpw h
    · rw [if_neg ht] at h
      by_cases hok : pw.any (fun c => t.contains c)
      · rw [if_pos hok] at h
        exact ih s pw posPool stream g pw' p' s' g' hs hpw h
      · rw [if_neg hok] at h
        rcases h1 : pullIdxStep pw.length pw.length fuel posPool stream g
          with _ | ⟨pos, posPool1, stream1, g1⟩
        · rw [h1] at h; simp at h
        · rw [h1] at h
          dsimp only at h
          rcases h2 : pullIdxStep t.length t.length fuel [] stream1 g1
            with _ | ⟨ci, q, stream2, g2⟩
          · rw [h2] at h; simp at h
          · rw [h2] at h
            dsimp only at h
            exact ih s _ _ _ _ pw' p' s' g' hs (by simpa using hpw) h

theorem numDiceOf_pos (ds : List Char) : 1 ≤ numDiceOf ds := by
  unfold numDiceOf
  split <;> omega

theorem rollDice_length (sides : Nat) :
    ∀ count fuel g rs g', rollDice sides count fuel g = some (rs, g') →
      rs.length = count := by
  intro count
  induction count with
  | zero =>
    intro fuel g rs g' h
    simp [rollDice] at h
    simp [h.1]
  | succ k ih =>
    intro fuel g rs g' h
    rw [rollDice] at h
    rcases h1 : rollSingleDie sides fuel g with _ | ⟨r, g1⟩
    · rw [h1] at h; simp at h
    · rw [h1] at h
      dsimp only at h
      rcases h2 : rollDice sides k fuel g1 with _ | ⟨rs2, g2⟩
      · rw [h2] at h; simp at h
      · rw [h2] at h
        simp at h
        obtain ⟨hrs, _⟩ := h
        subst hrs
        simp [ih fuel g1 rs2 g2 h2]

theorem processMatches_ne_noDice (fuel : Nat) :
    ∀ ms g total rolls,
      processMatches fuel ms g total rolls ≠ .failure .noDiceFound := by
  intro ms
  induction ms with
  | nil => intro g total rolls; simp [processMatches]
  | cons m rest ih =>
    intro g total rolls
    rw [processMatches]
    split
    · simp
    · split
      · simp
      · rcases h1 : rollDice m.sides (numDiceOf m.countDigits) fuel g
          with _ | ⟨rs, g1⟩
        · simp
        · dsimp only
          exact ih g1 _ _

theorem processMatches_success_len (fuel : Nat) :
    ∀ ms g total rolls t rs,
      processMatches fuel ms g total rolls = .success t rs →
      (ms = [] → rs = rolls ∧ t = total) ∧ (ms ≠ [] → rolls.length < rs.length) := by
  intro ms
  induction ms with
  | nil =>
    intro g total rolls t rs h
    simp [processMatches] at h
    exact ⟨fun _ => ⟨h.2.symm, h.1.symm⟩, fun hc => absurd rfl hc⟩
  | cons m rest ih =>
    intro g total rolls t rs h
    rw [processMatches] at h
    refine ⟨fun hc => by simp at hc, fun _ => ?_⟩
    split at h
    · simp at h
    · split at h
      · simp at h
      · rcases h1 : rollDice m.sides (numDiceOf m.countDigits) fuel g
          with _ | ⟨rs1, g1⟩
        · rw [h1] at h; simp at h
        · rw [h1] at h
          dsimp only at h
          have hlen : rs1.length = numDiceOf m.countDigits :=
            rollDice_length _ _ fuel g rs1 g1 h1
          have hpos : 1 ≤ rs1.length := hlen ▸ numDiceOf_pos _
          have := ih g1 _ (rolls ++ rs1) t rs h
          rcases Classical.em (rest = []) with hr | hr
          · have := (this.1 hr).1
            subst this
            simp
            omega
          · have := this.2 hr
            simp at this
            omega

theorem hkdfExpandAux_len (hmac : List Nat → List Nat → List Nat)
    (prk info : List Nat) (L : Nat)
    (h32 : ∀ d, (hmac prk d).length = 32) :
    ∀ fuel i prev gen, L ≤ gen + fuel →
      L ≤ gen +
        (List.flatten (hkdfExpandAux hmac prk info L fuel i prev gen)).length := by
  intro fuel
  induction fuel with
  | zero => intro i prev gen h; simpa [hkdfExpandAux] using h
  | succ f ih =>
    intro i prev gen h
    rw [hkdfExpandAux]
    by_cases hg : gen < L
    · rw [if_pos hg]
      have := ih (i + 1) (hmac prk (prev ++ info ++ [i % 256]))
        (gen + (hmac prk (prev ++ info ++ [i % 256])).length)
        (by rw [h32]; omega)
      simp only [List.flatten_cons, List.length_append] at this ⊢
      rw [h32] at this ⊢
      omega
    · rw [if_neg hg]
      simp
      omega

theorem packBits_length (bits : List Char) :
    (packBits bits).length = bits.length / 8 := by
  induction bits using packBits.induct with
  | case1 b0 b1 b2 b3 b4 b5 b6 b7 rest ih =>
    simp [packBits, ih]
    omega
  | case2 bits h =>
    rw [packBits.eq_def]
    split
    · exact absurd rfl (h _ _ _ _ _ _ _ _ _)
    · rename_i hne
      rcases bits with _ | ⟨a, _ | ⟨b, _ | ⟨c, _ | ⟨d, _ | ⟨e, _ | ⟨f, _ | ⟨x, _ | ⟨y, t⟩⟩⟩⟩⟩⟩⟩⟩ <;>
        first
        | exact absurd rfl (hne _ _ _ _ _ _ _ _ _)
        | simp

/-!  Claim theorems. -/

/-- C1: every index emitted by the rejection-sampling layer is in
[0, base): for every base ≥ 2 and every input byte buffer,
`indicesFromBytes` emits only values below `base`, and every value
returned by `rollSingleDie sides` for sides in [2, 1000] lies in
[1, sides]. -/
theorem c1_sampling_in_range :
    (∀ base buf x, 2 ≤ base → x ∈ indicesFromBytes buf base → x < base) ∧
    (∀ sides fuel g v g', 2 ≤ sides → sides ≤ 1000 →
      rollSingleDie sides fuel g = some (v, g') → 1 ≤ v ∧ v ≤ sides) := by
  constructor
  · intro base buf x hb hx
    unfold indicesFromBytes at hx
    rw [List.mem_filterMap] at hx
    obtain ⟨w, _, hw⟩ := hx
    split at hw
    · cases hw
      exact Nat.mod_lt _ (by omega)
    · cases hw
  · intro sides fuel
    induction fuel with
    | zero => intro g v g' _ _ h; simp [rollSingleDie] at h
    | succ f ih =>
      intro g v g' h2 h1000 h
      rw [rollSingleDie] at h
      rw [if_neg (by omega)] at h
      rw [if_neg (by omega)] at h
      dsimp only at h
      split at h
      · exact ih _ v g' h2 h1000 h
      · simp at h
        obtain ⟨hv, _⟩ := h
        have := Nat.mod_lt (readWord g).1 (show 0 < sides by omega)
        omega

/-- C1 witness: concrete instances of both parts, a 4-zero-byte buffer
with base 2 and a d6 roll from the all-zero generator. -/
theorem c1_sampling_in_range_witness :
    (0 < 2 ∧ (1 ≤ 1 ∧ 1 ≤ 6)) :=
  ⟨c1_sampling_in_range.1 2 [0, 0, 0, 0] 0 (by decide) (by decide),
   c1_sampling_in_range.2 6 1 zeroG 1 ⟨zeroG.bytes, 4⟩ (by decide) (by decide)
     rfl⟩

/-- C2: the key-derivation code contains no HKDF output-length limit: for
every HMAC whose blocks have the real 32-byte length and every requested
length above 255×32 = 8160 bytes, `hkdfSha256` still returns a byte
string of exactly the requested length instead of failing (the expand
counter wraps modulo 256 via `Buffer.from([i])`), contradicting the
claimed `DerivationLimitExceeded` failure. -/
theorem c2_hkdf_no_length_limit
    (hmac : List Nat → List Nat → List Nat) (ikm salt info : List Nat)
    (L : Nat) (h32 : ∀ k d, (hmac k d).length = 32) (_hL : 8160 < L) :
    (hkdfSha256 hmac ikm salt info L).length = L := by
  unfold hkdfSha256
  rw [List.length_take]
  have := hkdfExpandAux_len hmac (hmac salt ikm) info L
    (fun d => h32 _ d) L 1 [] 0 (by omega)
  omega

/-- C2 witness: at the failing input length 8161 the derivation returns
8161 bytes. -/
theorem c2_hkdf_no_length_limit_witness :
    (hkdfSha256 (fun _ _ => List.replicate 32 0) [] [] [] 8161).length = 8161 :=
  c2_hkdf_no_length_limit (fun _ _ => List.replicate 32 0) [] [] [] 8161
    (fun _ _ => by simp) (by omega)

/-- C3: reseed postcondition — for every prior generator state and every
seed material, the state after `reseed` has counter 0, an empty pool, the
first 32 HKDF output bytes as key, the last 16 as IV base, and the new
timestamp; consequently the first `getBytes` after a reseed serves a
prefix of the keystream generated under the new key only (the old pool
was discarded), never bytes generated under the previous key. -/
theorem c3_reseed_postcondition
    (hmac : List Nat → List Nat → List Nat) (sha : List Nat → List Nat)
    (aes : List Nat → List Nat → List Nat) (os : Nat → List Nat)
    (st : CSPRNGState) (seed osE : List Nat) (now n : Nat) :
    (reseed hmac sha st seed osE now).counter = 0 ∧
    (reseed hmac sha st seed osE now).pool = [] ∧
    (reseed hmac sha st seed osE now).key =
      some ((hkdfSha256 hmac seed (sha osE) infoSeed 48).take 32) ∧
    (reseed hmac sha st seed osE now).ivBase =
      some (((hkdfSha256 hmac seed (sha osE) infoSeed 48).drop 32).take 16) ∧
    (reseed hmac sha st seed osE now).lastReseed = now ∧
    (getBytes aes os n (reseed hmac sha st seed osE now)).1 =
      (keystreamBlocks aes ((hkdfSha256 hmac seed (sha osE) infoSeed 48).take 32)
        (((hkdfSha256 hmac seed (sha osE) infoSeed 48).drop 32).take 16)
        0 ((max 4096 n + 15) / 16)).take n := by
  refine ⟨rfl, rfl, rfl, rfl, rfl, ?_⟩
  unfold getBytes
  rcases Nat.eq_zero_or_pos n with hn | hn
  · subst hn; simp
  · rw [if_pos (by simpa [reseed] using hn)]
    simp [reseed, refill]

/-- C9: counter uniqueness — a seeded `refill` consumes the consecutive
counter values `[counter, counter + blocks)` (its pool extension is the
keystream of exactly those counters), leaves the counter increased by
exactly the number of generated 16-byte blocks, and therefore the counter
ranges of two successive refills under the same key are disjoint. -/
theorem c9_refill_counter_unique
    (aes : List Nat → List Nat → List Nat) (os : Nat → List Nat)
    (st : CSPRNGState) (minBytes : Nat) (k iv : List Nat)
    (hk : st.key = some k) (hiv : st.ivBase = some iv) :
    (refill aes os st minBytes).counter =
      st.counter + (max 4096 minBytes + 15) / 16 ∧
    (refill aes os st minBytes).pool =
      st.pool ++ keystreamBlocks aes k iv st.counter ((max 4096 minBytes + 15) / 16) ∧
    (∀ m2 j1 j2, j1 < (max 4096 minBytes + 15) / 16 →
      j2 < (max 4096 m2 + 15) / 16 →
      st.counter + j1 ≠ (refill aes os st minBytes).counter + j2) := by
  unfold refill
  rw [hk, hiv]
  refine ⟨rfl, rfl, ?_⟩
  intro m2 j1 j2 h1 h2
  simp only []
  omega

/-- C9 witness: a concrete seeded state refilled with `minBytes = 1`
advances its counter by 256 blocks and its first counter value differs
from the first counter value of the following refill. -/
theorem c9_refill_counter_unique_witness :
    (refill (fun _ _ => List.replicate 16 0) (fun _ => [])
      ⟨some (List.replicate 32 0), some (List.replicate 16 0), 0, [], 0⟩ 1).counter =
      (⟨some (List.replicate 32 0), some (List.replicate 16 0), 0, [], 0⟩ :
        CSPRNGState).counter + (max 4096 1 + 15) / 16 ∧
    (⟨some (List.replicate 32 0), some (List.replicate 16 0), 0, [], 0⟩ :
        CSPRNGState).counter + 0 ≠
      (refill (fun _ _ => List.replicate 16 0) (fun _ => [])
        ⟨some (List.replicate 32 0), some (List.replicate 16 0), 0, [], 0⟩ 1).counter + 0 :=
  ⟨(c9_refill_counter_unique (fun _ _ => List.replicate 16 0) (fun _ => [])
      ⟨some (List.replicate 32 0), some (List.replicate 16 0), 0, [], 0⟩ 1
      (List.replicate 32 0) (List.replicate 16 0) rfl rfl).1,
   (c9_refill_counter_unique (fun _ _ => List.replicate 16 0) (fun _ => [])
      ⟨some (List.replicate 32 0), some (List.replicate 16 0), 0, [], 0⟩ 1
      (List.replicate 32 0) (List.replicate 16 0) rfl rfl).2.2 1 0 0
      (by decide) (by decide)⟩

/-- C4: for every list of blocks each of which renders and pads to exactly
`bitsPerBlock` bits, `packBlocksToBytes` returns exactly
`⌊N·bitsPerBlock/8⌋` bytes, discarding any trailing run of fewer than
8 bits. -/
theorem c4_packing_length (blocks : List QrngBlock) (bitsPerBlock : Nat)
    (h : ∀ blk ∈ blocks, (blockBitsOf bitsPerBlock blk).length = bitsPerBlock) :
    (packBlocksToBytes blocks bitsPerBlock).length =
      blocks.length * bitsPerBlock / 8 := by
  unfold packBlocksToBytes
  rw [packBits_length, List.length_flatten]
  congr 1
  induction blocks with
  | nil => simp
  | cons b rest ih =>
    simp only [List.map_cons, List.map_map, List.sum_cons, List.length_cons]
    rw [h b (by simp)]
    have := ih (fun blk hblk => h blk (by simp [hblk]))
    simp only [List.map_map] at this
    rw [this]
    ring

/-- C4 witness: 10 blocks at 10 bits per block pack to exactly
⌊100/8⌋ = 12 bytes. -/
theorem c4_packing_length_witness :
    (packBlocksToBytes (List.replicate 10 (⟨none, some 0⟩ : QrngBlock)) 10).length = 12 := by
  have := c4_packing_length (List.replicate 10 (⟨none, some 0⟩ : QrngBlock)) 10
    (by decide)
  simpa using this

/-- C6: a `pullIdx` invocation with base 1 on a byte stream holding at
least one complete word (as every invocation inside `derivePassword`,
whose stream always holds at least 128 bytes) returns 0, leaves the byte
stream unchanged, and consumes nothing from the generator: with base 1
every word is accepted and reduced to 0, so no top-up `getBytes` call is
made. -/
theorem c6_base_one_returns_zero_without_draw
    (stream : List Nat) (g : GenStream) (fuel : Nat)
    (hbytes : ∀ b ∈ stream, b < 256) (hlen : 4 ≤ stream.length)
    (hfuel : 0 < fuel) :
    pullIdxStep 1 1 fuel [] stream g =
      some (0, (indicesFromBytes stream 1).tail, stream, g) := by
  obtain ⟨f, rfl⟩ : ∃ f, fuel = f + 1 := ⟨fuel - 1, by omega⟩
  match stream, hlen with
  | b0 :: b1 :: b2 :: b3 :: rest, _ =>
    have h0 : b0 < 256 := hbytes b0 (by simp)
    have h1 : b1 < 256 := hbytes b1 (by simp)
    have h2 : b2 < 256 := hbytes b2 (by simp)
    have h3 : b3 < 256 := hbytes b3 (by simp)
    have hw : readUInt32BE b0 b1 b2 b3 < 4294967296 / 1 * 1 := by
      unfold readUInt32BE
      omega
    have hind : indicesFromBytes (b0 :: b1 :: b2 :: b3 :: rest) 1 =
        readUInt32BE b0 b1 b2 b3 % 1 ::
          (wordsOf rest).filterMap (fun n =>
            if n < 4294967296 / 1 * 1 then some (n % 1) else none) := by
      unfold indicesFromBytes
      rw [wordsOf]
      simp only [List.filterMap_cons, if_pos hw]
    rw [pullIdxStep, hind]
    simp [Nat.mod_one, indicesFromBytes]

/-- C6 witness: the concrete stream `[0,0,0,0]` with base 1 and one unit
of fuel. -/
theorem c6_base_one_returns_zero_without_draw_witness :
    pullIdxStep 1 1 1 [] [0, 0, 0, 0] zeroG =
      some (0, (indicesFromBytes [0, 0, 0, 0] 1).tail, [0, 0, 0, 0], zeroG) :=
  c6_base_one_returns_zero_without_draw [0, 0, 0, 0] zeroG 1
    (by decide) (by decide) (by decide)

/-- C5 counterexample: under the all-zero generator sequence, a length-24
password with all four classes enabled and `requireEachClass` comes back
as `!aaaaaaaaaaaaaaaaaaaaaaa` — the uppercase and digit repair characters
were both overwritten at position 0 by later repairs, so the result
contains no uppercase character at all, refuting the claim that every
enabled class is always represented. -/
theorem c5_missing_class_cx :
    derivePassword 24 pwCharset true allOpts zeroG 4 =
      some ('!' :: List.replicate 23 'a') ∧
    (('!' :: List.replicate 23 'a').all fun c => !(UPPER.contains c)) = true := by
  constructor
  · decide
  · decide

/-- C5 (amended): whenever `derivePassword` with length 24, all four
classes enabled and `requireEachClass` returns, the result has exactly 24
characters and contains at least one character of the last-enforced class
(the symbol alphabet); the other enabled classes are only repaired
best-effort, since a later repair may overwrite an earlier one. -/
theorem c5_password_length_and_last_class
    (g : GenStream) (fuel : Nat) (pw : List Char)
    (h : derivePassword 24 pwCharset true allOpts g fuel = some pw) :
    pw.length = 24 ∧ ∃ c, c ∈ pw ∧ c ∈ DEFAULT_SYMBOLS := by
  unfold derivePassword at h
  rw [if_neg (by omega)] at h
  rcases hsg : takeBytes g (max 128 (24 * 4)) with ⟨stream0, g0⟩
  rw [hsg] at h
  dsimp only at h
  rcases h1 : drawChars pwCharset 24 fuel [] stream0 g0
    with _ | ⟨out, p1, s1, g1⟩
  · rw [h1] at h; simp at h
  · rw [h1] at h
    dsimp only at h
    rw [if_pos rfl] at h
    rcases h2 : enforceRequirementsAsync fuel (reqSetsOf allOpts) out [] s1 g1
      with _ | ⟨pw2, p2, s2, g2⟩
    · rw [h2] at h; simp at h
    · rw [h2] at h
      simp at h
      subst h
      have hout : out.length = 24 :=
        drawChars_length pwCharset 24 fuel _ _ _ out p1 s1 g1 h1
      have hsets : reqSetsOf allOpts = [LOWER, UPPER, DIGITS] ++ [DEFAULT_SYMBOLS] := by
        decide
      rw [hsets] at h2
      refine ⟨?_, ?_⟩
      · rw [enforce_some_length fuel _ out [] s1 g1 pw2 p2 s2 g2 h2, hout]
      · exact enforce_last_mem fuel [LOWER, UPPER, DIGITS] DEFAULT_SYMBOLS
          out [] s1 g1 pw2 p2 s2 g2 (by decide) (by omega) h2

/-- C5 witness: the amended theorem applied to the all-zero generator
sequence. -/
theorem c5_password_length_and_last_class_witness :
    ('!' :: List.replicate 23 'a').length = 24 :=
  (c5_password_length_and_last_class zeroG 4 ('!' :: List.replicate 23 'a')
    (by decide)).1

/-- C10: with `excludeAmbiguous` and `requireEachClass` both set there is
a generator sequence under which the password contains an ambiguous
character that `buildCharset` had removed: the class-presence repair
draws from the full unfiltered class alphabets, here writing the digit
`0` into the password even though `0` is not in the built charset. -/
theorem c10_ambiguous_reintroduced :
    derivePassword 24 pwCharset true allOpts g10 4 =
      some ('0' :: '!' :: 'b' :: List.replicate 21 'a') ∧
    '0' ∈ '0' :: '!' :: 'b' :: List.replicate 21 'a' ∧
    '0' ∉ pwCharset ∧ '0' ∈ AMBIGUOUS := by
  refine ⟨by decide, by decide, by decide, by decide⟩

/-- C7 counterexample: the expression `0d6`, whose only term has written
dice count 0, does not fail with `InvalidDiceCount`: `parseInt('0') || 1`
turns the count into 1 and the term is rolled (here to a single 1 under
the all-zero generator sequence). -/
theorem c7_zero_count_rolls_cx :
    diceMatchesOf (String.toList "0d6") = [⟨['0'], 6, 0⟩] ∧
    parseAndRollDice (String.toList "0d6") 1 zeroG = .success 1 [1] := by
  exact ⟨by decide, by decide⟩

/-- C7 (amended): parsed dice counts are never below 1 (a written 0 or an
omitted count defaults to 1), so the low side of the validation is
unreachable and a term like `0d6` is rolled as one die rather than
failing; a term whose count parses above 100 does fail with
`InvalidDiceCount`, as for `101d6`. -/
theorem c7_dice_count_validation :
    (∀ ds, 1 ≤ numDiceOf ds) ∧
    (∀ ds sides e ms g fuel total rolls,
      1 ≤ sides → sides ≤ 1000 → 100 < numDiceOf ds →
      processMatches fuel (⟨ds, sides, e⟩ :: ms) g total rolls =
        .failure .invalidDiceCount) ∧
    (∀ fuel g, parseAndRollDice (String.toList "101d6") fuel g =
      .failure .invalidDiceCount) ∧
    (∀ fuel g, parseAndRollDice (String.toList "0d6") fuel g ≠
      .failure .invalidDiceCount) := by
  refine ⟨numDiceOf_pos, ?_, ?_, ?_⟩
  · intro ds sides e ms g fuel total rolls hs1 hs1000 hc
    rw [processMatches]
    rw [if_neg (by simp; omega)]
    rw [if_pos (by simp; omega)]
  · intro fuel g
    rfl
  · intro fuel g
    have hm : diceMatchesOf (String.toList "0d6") = [⟨['0'], 6, 0⟩] := by decide
    unfold parseAndRollDice
    rw [hm]
    rw [processMatches]
    rw [if_neg (by decide)]
    rw [if_neg (by decide)]
    rcases h1 : rollDice 6 (numDiceOf ['0']) fuel g with _ | ⟨rs, g1⟩
    · simp
    · dsimp only
      have hrs : rs.length = 1 := by
        have := rollDice_length 6 (numDiceOf ['0']) fuel g rs g1 h1
        simpa using this
      rw [processMatches]
      rcases rs with _ | ⟨r, rest⟩
      · simp at hrs
      · have : rest = [] := by simpa using hrs
        subst this
        dsimp only
        rw [if_neg (by simp)]
        simp

/-- C7 witness: the amended theorem's parts at concrete inputs — count
digits `0`, a head term `101d6` at the match level, the full expressions
`101d6` and `0d6` with the all-zero generator sequence. -/
theorem c7_dice_count_validation_witness :
    1 ≤ numDiceOf ['0'] ∧
    processMatches 0 [⟨['1', '0', '1'], 6, 0⟩] zeroG 0 [] =
      .failure .invalidDiceCount ∧
    parseAndRollDice (String.toList "101d6") 0 zeroG =
      .failure .invalidDiceCount ∧
    parseAndRollDice (String.toList "0d6") 0 zeroG ≠
      .failure .invalidDiceCount :=
  ⟨c7_dice_count_validation.1 ['0'],
   c7_dice_count_validation.2.1 ['1', '0', '1'] 6 0 [] zeroG 0 0 []
     (by decide) (by decide) (by decide),
   c7_dice_count_validation.2.2.1 0 zeroG,
   c7_dice_count_validation.2.2.2 0 zeroG⟩

/-- C8 counterexample: the expression `0` consists of a single standalone
modifier of value 0 and no dice term; the claim says it must not fail
with `NoDiceFound`, but the code's `total === 0 && rolls.length === 0`
test fires and evaluation fails with `NoDiceFound`. -/
theorem c8_zero_modifier_cx :
    standaloneModsOf (String.toList "0") = [0] ∧
    diceMatchesOf (String.toList "0") = [] ∧
    parseAndRollDice (String.toList "0") 1 zeroG = .failure .noDiceFound := by
  exact ⟨by decide, by decide, by decide⟩

/-- C8 (amended): `NoDiceFound` is raised if and only if the expression
yields no dice term and its standalone modifiers sum to zero — so an
expression whose modifiers are present but sum to 0 (such as `0`) still
fails, while any expression with a dice term or a non-zero modifier sum
does not fail with `NoDiceFound`. -/
theorem c8_no_dice_found_iff (expr : List Char) (fuel : Nat) (g : GenStream) :
    parseAndRollDice expr fuel g = .failure .noDiceFound ↔
      (diceMatchesOf expr = [] ∧
        (standaloneModsOf expr).foldl (· + ·) 0 = 0) := by
  unfold parseAndRollDice
  rcases hp : processMatches fuel (diceMatchesOf expr) g 0 [] with ⟨t, rolls⟩ | e | _
  · dsimp only
    split
    · rename_i hcond
      obtain ⟨htot, hrolls⟩ := hcond
      subst hrolls
      have hlen := processMatches_success_len fuel (diceMatchesOf expr) g 0 [] t [] hp
      have hms : diceMatchesOf expr = [] := by
        by_contra hne
        have := hlen.2 hne
        simp at this
      obtain ⟨_, ht⟩ := hlen.1 hms
      subst ht
      simp only [hms, true_and]
      constructor
      · intro _
        omega
      · intro _
        trivial
    · rename_i hcond
      constructor
      · intro hfe
        simp at hfe
      · intro ⟨hms, hS⟩
        rw [hms] at hp
        rw [processMatches] at hp
        obtain ⟨ht, hrolls⟩ : t = 0 ∧ rolls = [] := by
          cases hp
          exact ⟨rfl, rfl⟩
        exact absurd ⟨by omega, hrolls⟩ hcond
  · constructor
    · intro hfe
      have he : e = .noDiceFound := by
        cases hfe
        rfl
      exact absurd (he ▸ hp) (processMatches_ne_noDice fuel _ g 0 [])
    · intro ⟨hms, _⟩
      rw [hms, processMatches] at hp
      cases hp
  · constructor
    · intro hfe
      cases hfe
    · intro ⟨hms, _⟩
      rw [hms, processMatches] at hp
      cases hp
